import Mathlib

/-!
Verification development for the yaml-ast crate: an in-memory YAML document
model (`src/lib.rs`), its tree-to-event translator (`IntoEvents`), and two
iterations of the block-style emitter state machine
(`src/emitter.rs`, the flat-state iteration, and `src/emitter/mod.rs`,
the stack-based iteration).

Modelling conventions:
  * Rust `usize` counters are modelled as `Int` (for `indent_level`, so that
    absence of underflow is a provable statement) or `Nat` (for `indent_size`
    and cursor indices, which are only ever incremented); overflow at 2^64 is
    immaterial to every property considered here.
  * The `std::fmt::Write` sink is an accumulated `String`; writes to a
    `String` sink cannot fail, so the `Error::Write` variant never arises and
    the error type instead records the panicking control paths of the source
    (`todo!()`, `.unwrap()` on an empty stack, the final `assert!`, and the
    two `Event` variants that no `match` arm of either emitter covers).
  * The `EventIter` cursor (a `Vec` plus an index) is embedded verbatim for
    the cursor claims; the emitter loops are folds over the remaining event
    list, where `next` is the head and `peek` is the head of the tail,
    exactly the view the cursor provides.
-/

/-- Event alphabet of `src/events.rs` (`enum Event`). -/
inductive Event where
  | streamStart
  | streamEnd
  | documentStart
  | documentEnd
  | alias (id : Nat)
  | scalar (value : String)
  | sequenceStart (tag : Nat)
  | sequenceEnd
  | mappingStart (tag : Nat)
  | mappingKey
  | mappingValue
  | mappingEnd
deriving DecidableEq, Repr

/-- Panicking / failing control paths of the emitters. A `String` sink never
produces a write error, so these are the only failure modes. -/
inductive EmitError where
  /-- A `todo!()` placeholder was reached (aliases, scalars in a context the
  emitter does not handle). -/
  | notImplemented
  /-- `.unwrap()` / `.last().unwrap()` on an empty context stack
  (`States::pop`, `States::current_mut`). -/
  | poppedEmptyStack
  /-- The final `assert!(self.states.is_empty())` of `Emitter::emit` failed. -/
  | assertFailed
  /-- The consumed event has no `match` arm in the source
  (`Event::MappingKey`, `Event::MappingValue`). -/
  | unmatchedEvent
deriving DecidableEq, Repr

/-- Rust `str::repeat`: `n` concatenated copies of `s`. -/
def strRepeat (s : String) : Nat → String
  | 0 => ""
  | n + 1 => s ++ strRepeat s n

/-- Event cursor of `src/emitter/iter.rs` (also duplicated inside
`src/emitter.rs`): the produced event sequence plus a read position. -/
structure EventIter where
  events : List Event
  index : Nat
deriving DecidableEq, Repr

namespace EventIter

/-- `EventIter::new`. -/
def new (events : List Event) : EventIter := ⟨events, 0⟩

/-- `EventIter::next`: returns the event at the current position and always
advances the index by one (the source increments `self.index` even past the
end). -/
def next (it : EventIter) : Option Event × EventIter :=
  (it.events.get? it.index, { it with index := it.index + 1 })

/-- `EventIter::peek`: the event at the current position, without advancing. -/
def peek (it : EventIter) : Option Event :=
  it.events.get? it.index

/-- `EventIter::peek_as`: `peek` filtered through equality with `ty`. -/
def peek_as (it : EventIter) (ty : Event) : Option Event :=
  match it.events.get? it.index with
  | some e => if e = ty then some e else none
  | none => none

end EventIter

/-! ## Flat-state emitter, `src/emitter.rs` -/

namespace Flat

/-- `enum State` of `src/emitter.rs`. -/
inductive State where
  | initial
  | sequenceItem
  | mappingKey
  | mappingValue
deriving DecidableEq, Repr

/-- `struct EmitterState` of `src/emitter.rs`. `indent_level` is `usize` in
the source; it is an `Int` here so that non-negativity is a statement, not a
type artifact. -/
structure EmitterState where
  indent_level : Int
  indent_size : Nat
  state : State
deriving DecidableEq, Repr

/-- `Emitter::emit_indent`: append `" ".repeat(indent_size).repeat(indent_level)`. -/
def emit_indent (st : EmitterState) (out : String) : String :=
  out ++ strRepeat (strRepeat " " st.indent_size) st.indent_level.toNat

/-- Result of processing one event inside the `while let` loop of
`Emitter::emit`. -/
inductive Step where
  /-- Loop continues with the updated state and output. -/
  | next (st : EmitterState) (out : String)
  /-- `Event::StreamEnd => break`. -/
  | halt
  /-- A panicking path was reached. -/
  | fail (err : EmitError)
deriving DecidableEq, Repr

/-- One iteration of the event loop of `Emitter::emit` in `src/emitter.rs`:
the `match event` body, where `rest` is the part of the event sequence after
`e`, so that `rest.head?` is what `self.events.peek()` returns. -/
def step (st : EmitterState) (out : String) (e : Event) (rest : List Event) : Step :=
  match e with
  | .streamStart => .next st out
  | .streamEnd => .halt
  | .documentStart => .next st (out ++ "---\n")
  | .documentEnd => .next st (out ++ "...\n")
  | .alias _ => .fail .notImplemented
  | .scalar v =>
    match st.state with
    | .initial => .fail .notImplemented
    | .sequenceItem => .next st (emit_indent st out ++ "- " ++ v ++ "\n")
    | .mappingKey =>
      match rest.head? with
      | some (.sequenceStart _) => .next { st with state := .mappingValue } (out ++ v ++ ": \n")
      | _ => .next { st with state := .mappingValue } (out ++ v ++ ": ")
    | .mappingValue =>
      match rest.head? with
      | some .mappingEnd => .next st (out ++ v ++ "\n")
      | _ => .next { st with state := .mappingKey } (out ++ v ++ "\n")
  | .sequenceStart _ =>
    .next { st with indent_level := st.indent_level + 1, state := .sequenceItem } out
  | .sequenceEnd =>
    .next { st with
             indent_level := if 0 < st.indent_level then st.indent_level - 1 else st.indent_level,
             state := .initial } out
  | .mappingStart _ =>
    match rest.head? with
    | some (.mappingStart _) =>
      let st' := { st with indent_level := st.indent_level + 1, state := State.mappingKey }
      .next st' (emit_indent st' out)
    | _ => .next { st with state := .mappingKey } out
  | .mappingEnd =>
    .next { st with
             indent_level := if 0 < st.indent_level then st.indent_level - 1 else st.indent_level } out
  | .mappingKey => .fail .unmatchedEvent
  | .mappingValue => .fail .unmatchedEvent

/-- The `while let Some(event) = self.events.next()` loop of `Emitter::emit`. -/
def emitFrom (st : EmitterState) (out : String) : List Event → Except EmitError String
  | [] => .ok out
  | e :: rest =>
    match step st out e rest with
    | .next st' out' => emitFrom st' out' rest
    | .halt => .ok out
    | .fail err => .error err

/-- `Emitter::new`: initial emitter state. -/
def initState (indent_size : Nat) : EmitterState :=
  { indent_level := 0, indent_size := indent_size, state := .initial }

/-- `Emitter::emit` of `src/emitter.rs`, with the written text returned. -/
def emit (events : List Event) (indent_size : Nat) : Except EmitError String :=
  emitFrom (initState indent_size) "" events

/-- The sequence of emitter states reached while processing the events
(one entry per successfully processed event; the trace stops at `break` or at
a panicking path). -/
def traceFrom (st : EmitterState) (out : String) : List Event → List EmitterState
  | [] => []
  | e :: rest =>
    match step st out e rest with
    | .next st' out' => st' :: traceFrom st' out' rest
    | .halt => []
    | .fail _ => []

end Flat

/-! ## Stack-based emitter, `src/emitter/mod.rs` with `state.rs`, `options.rs` -/

namespace Stacked

/-- `enum State` of `src/emitter/state.rs`. -/
inductive State where
  | stream
  | document
  | sequence
  | mapping (is_key : Bool)
deriving DecidableEq, Repr

/-- `struct EmitterOptions` of `src/emitter/options.rs`. -/
structure EmitterOptions where
  indent_size : Nat
deriving DecidableEq, Repr

/-- `EmitterOptions::default()` via the builder: `indent_size = 2`. -/
def EmitterOptions.default : EmitterOptions := ⟨2⟩

/-- Mutable state of `struct Emitter` in `src/emitter/mod.rs`: the indent
level (an `Int` here, `usize` in the source) and the context stack
(`struct States`, a `Vec<State>`; the head of the list is the top). -/
structure MState where
  indent_level : Int
  states : List State
  indent_size : Nat
deriving DecidableEq, Repr

/-- `Emitter::emit_indent`: append `" ".repeat(indent_size).repeat(indent_level)`. -/
def emit_indent (st : MState) (out : String) : String :=
  out ++ strRepeat (strRepeat " " st.indent_size) st.indent_level.toNat

/-- One iteration of the event loop of `Emitter::emit` in
`src/emitter/mod.rs`: the `match event` body with its helper methods inlined;
`rest.head?` is what `self.events.peek()` returns. Panics (`todo!()`, the
`unwrap`s inside `States::pop` / `States::current_mut`) are `Except.error`. -/
def step (st : MState) (out : String) (e : Event) (rest : List Event) :
    Except EmitError (MState × String) :=
  match e with
  | .streamStart => .ok ({ st with states := .stream :: st.states }, out)
  | .streamEnd =>
    match st.states with
    | [] => .error .poppedEmptyStack
    | _ :: tl => .ok ({ st with states := tl }, out)
  | .documentStart => .ok ({ st with states := .document :: st.states }, out ++ "---\n")
  | .documentEnd =>
    match st.states with
    | [] => .error .poppedEmptyStack
    | _ :: tl => .ok ({ st with states := tl }, out ++ "...\n")
  | .alias _ => .error .notImplemented
  | .scalar v =>
    match st.states with
    | [] => .error .poppedEmptyStack
    | .stream :: _ => .error .notImplemented
    | .document :: _ => .error .notImplemented
    | .sequence :: _ => .ok (st, emit_indent st out ++ "- " ++ v ++ "\n")
    | .mapping is_key :: tl =>
      if is_key then
        match rest.head? with
        | some (.sequenceStart _) =>
          .ok ({ st with states := .mapping false :: tl }, out ++ v ++ ": \n")
        | _ => .ok ({ st with states := .mapping false :: tl }, out ++ v ++ ": ")
      else
        .ok ({ st with states := .mapping true :: tl }, out ++ v ++ "\n")
  | .sequenceStart _ =>
    .ok ({ st with indent_level := st.indent_level + 1, states := .sequence :: st.states }, out)
  | .sequenceEnd =>
    match st.states with
    | [] => .error .poppedEmptyStack
    | _ :: tl =>
      .ok ({ st with
              indent_level := if 0 < st.indent_level then st.indent_level - 1 else st.indent_level,
              states := tl }, out)
  | .mappingStart _ =>
    match rest.head? with
    | some (.mappingStart _) =>
      let st' := { st with indent_level := st.indent_level + 1 }
      .ok ({ st' with states := .mapping true :: st'.states }, emit_indent st' out)
    | _ => .ok ({ st with states := .mapping true :: st.states }, out)
  | .mappingEnd =>
    match st.states with
    | [] => .error .poppedEmptyStack
    | _ :: tl =>
      .ok ({ st with
              indent_level := if 0 < st.indent_level then st.indent_level - 1 else st.indent_level,
              states := tl }, out)
  | .mappingKey => .error .unmatchedEvent
  | .mappingValue => .error .unmatchedEvent

/-- The event loop of `Emitter::emit` in `src/emitter/mod.rs`, returning the
final mutable state together with the written text. -/
def emitFrom (st : MState) (out : String) : List Event → Except EmitError (MState × String)
  | [] => .ok (st, out)
  | e :: rest =>
    match step st out e rest with
    | .ok (st', out') => emitFrom st' out' rest
    | .error err => .error err

/-- `Emitter::new`: initial emitter state (`States::new()` is empty,
`indent_level` is 0). -/
def initState (options : EmitterOptions) : MState :=
  { indent_level := 0, states := [], indent_size := options.indent_size }

/-- `Emitter::emit` of `src/emitter/mod.rs`, including the final
`assert!(self.states.is_empty())`. -/
def emit (events : List Event) (options : EmitterOptions) : Except EmitError String :=
  match emitFrom (initState options) "" events with
  | .ok (st, out) => if st.states.isEmpty then .ok out else .error .assertFailed
  | .error err => .error err

/-- The sequence of emitter states reached while processing the events
(one entry per successfully processed event; stops at a panicking path). -/
def traceFrom (st : MState) (out : String) : List Event → List MState
  | [] => []
  | e :: rest =>
    match step st out e rest with
    | .ok (st', out') => st' :: traceFrom st' out' rest
    | .error _ => []

end Stacked

/-! ## Well-nestedness of an event sequence (spec section 3, Event invariant) -/

/-- The four bracket kinds of the event alphabet. -/
inductive BKind where
  | stream
  | document
  | sequence
  | mapping
deriving DecidableEq, Repr

/-- Structural kind of a context frame of the stack-based emitter. -/
def Stacked.State.kind : Stacked.State → BKind
  | .stream => .stream
  | .document => .document
  | .sequence => .sequence
  | .mapping _ => .mapping

/-- One event of the bracket checker: a start event pushes its kind, an end
event pops a matching kind (`none` on a mismatch or an empty stack), every
other event is neutral. -/
def bstep (ks : List BKind) : Event → Option (List BKind)
  | .streamStart => some (.stream :: ks)
  | .streamEnd =>
    match ks with
    | .stream :: ks' => some ks'
    | _ => none
  | .documentStart => some (.document :: ks)
  | .documentEnd =>
    match ks with
    | .document :: ks' => some ks'
    | _ => none
  | .sequenceStart _ => some (.sequence :: ks)
  | .sequenceEnd =>
    match ks with
    | .sequence :: ks' => some ks'
    | _ => none
  | .mappingStart _ => some (.mapping :: ks)
  | .mappingEnd =>
    match ks with
    | .mapping :: ks' => some ks'
    | _ => none
  | _ => some ks

/-- Bracket checker: `ks` is the stack of currently open kinds (head is the
innermost). The sequence is accepted when it closes every open kind
exactly. -/
def balancedFrom (ks : List BKind) : List Event → Bool
  | [] => ks.isEmpty
  | e :: rest =>
    match bstep ks e with
    | some ks' => balancedFrom ks' rest
    | none => false

def isStreamStart : Event → Bool
  | .streamStart => true
  | _ => false

def isStreamEnd : Event → Bool
  | .streamEnd => true
  | _ => false

/-- A well-nested event sequence: every start is matched by its end at the
same depth, and the whole sequence is bracketed by exactly one
`StreamStart` / `StreamEnd` pair. -/
def WellNested (es : List Event) : Prop :=
  balancedFrom [] es = true ∧
  es.head? = some .streamStart ∧
  es.getLast? = some .streamEnd ∧
  es.countP isStreamStart = 1 ∧
  es.countP isStreamEnd = 1

instance (es : List Event) : Decidable (WellNested es) :=
  decidable_of_iff (balancedFrom [] es = true ∧ es.head? = some .streamStart ∧
    es.getLast? = some .streamEnd ∧ es.countP isStreamStart = 1 ∧
    es.countP isStreamEnd = 1) Iff.rfl

/-- Number of open sequence or mapping kinds: the only kinds whose start /
end events touch the indent level. -/
def smCount : List BKind → Int
  | [] => 0
  | .sequence :: ks => smCount ks + 1
  | .mapping :: ks => smCount ks + 1
  | .stream :: ks => smCount ks
  | .document :: ks => smCount ks

/-! ## Document model of `src/lib.rs` and its translator -/

/-- `enum Node` of `src/lib.rs`. `Mapping` is `BTreeMap<Node, Node>`,
embedded as the association list the map iterates (ascending keys by
construction when built through `btInsert`); `Sequence` is `Vec<Node>`;
`Integer` is `i64`, modelled as `Int`; `FloatingPoint` keeps its textual
form. -/
inductive Node where
  | mapping (m : List (Node × Node))
  | sequence (s : List Node)
  | string (s : String)
  | null
  | boolean (b : Bool)
  | integer (i : Int)
  | floatingPoint (text : String)

mutual

/-- The derived `Ord` of `Node` (`#[derive(PartialOrd, Ord)]`): variants in
declaration order (`Mapping < Sequence < String < Null < Boolean < Integer <
FloatingPoint`), fields compared lexicographically within a variant.
`compare` on `String` is lexicographic by code point, which is the same
order as the byte-wise comparison Rust performs on UTF-8. -/
def cmpNode : Node → Node → Ordering
  | .mapping a, .mapping b => cmpPairs a b
  | .mapping _, _ => .lt
  | _, .mapping _ => .gt
  | .sequence a, .sequence b => cmpList a b
  | .sequence _, _ => .lt
  | _, .sequence _ => .gt
  | .string a, .string b => compare a b
  | .string _, _ => .lt
  | _, .string _ => .gt
  | .null, .null => .eq
  | .null, _ => .lt
  | _, .null => .gt
  | .boolean a, .boolean b => compare a b
  | .boolean _, _ => .lt
  | _, .boolean _ => .gt
  | .integer a, .integer b => compare a b
  | .integer _, _ => .lt
  | _, .integer _ => .gt
  | .floatingPoint a, .floatingPoint b => compare a b

/-- Lexicographic comparison of `Vec<Node>` (a strict prefix is smaller). -/
def cmpList : List Node → List Node → Ordering
  | [], [] => .eq
  | [], _ :: _ => .lt
  | _ :: _, [] => .gt
  | a :: xs, b :: ys => (cmpNode a b).then (cmpList xs ys)

/-- Lexicographic comparison of the iterated `(key, value)` pairs of a
`BTreeMap<Node, Node>` (`Ord` on pairs is key first, then value). -/
def cmpPairs : List (Node × Node) → List (Node × Node) → Ordering
  | [], [] => .eq
  | [], _ :: _ => .lt
  | _ :: _, [] => .gt
  | (k, v) :: xs, (k', v') :: ys => ((cmpNode k k').then (cmpNode v v')).then (cmpPairs xs ys)

end

/-- `BTreeMap::insert` on the sorted association list: walk to the ordered
position; on an equal key only the value is replaced (a `BTreeMap` keeps the
originally stored key). -/
def btInsert : List (Node × Node) → Node → Node → List (Node × Node)
  | [], k, v => [(k, v)]
  | (k', v') :: rest, k, v =>
    match cmpNode k k' with
    | .lt => (k, v) :: (k', v') :: rest
    | .eq => (k', v) :: rest
    | .gt => (k', v') :: btInsert rest k v

/-- `BTreeMap::get` on the sorted association list. -/
def btLookup : List (Node × Node) → Node → Option Node
  | [], _ => none
  | (k', v') :: rest, k =>
    match cmpNode k k' with
    | .lt => none
    | .eq => some v'
    | .gt => btLookup rest k

/-- `BTreeMap::contains_key`. -/
def btContains (m : List (Node × Node)) (k : Node) : Bool :=
  (btLookup m k).isSome

/-- A `BTreeMap<Node, Node>` built by a sequence of inserts into an
initially empty map (`Mapping::from` of an array of pairs). -/
def mkMapping (ps : List (Node × Node)) : List (Node × Node) :=
  ps.foldl (fun m kv => btInsert m kv.1 kv.2) []

/-- The keys of the map, in iteration order. -/
def mapKeys (m : List (Node × Node)) : List Node := m.map Prod.fst

/-- The keys are in strictly ascending order under the derived Node
ordering. -/
def KeysSorted (m : List (Node × Node)) : Prop :=
  List.Pairwise (fun p q => cmpNode p.1 q.1 = Ordering.lt) m

mutual

/-- `impl IntoEvents for Node` of `src/lib.rs`. `FloatingPoint` hits
`todo!()`, so the translation is partial: `none` models the panic. -/
def nodeIntoEvents : Node → Option (List Event)
  | .mapping m =>
    match pairsIntoEvents m with
    | some body => some (.mappingStart 0 :: (body ++ [.mappingEnd]))
    | none => none
  | .sequence s =>
    match listIntoEvents s with
    | some body => some (.sequenceStart 0 :: (body ++ [.sequenceEnd]))
    | none => none
  | .string s => some [.scalar s]
  | .null => some [.scalar "null"]
  | .boolean b => some [.scalar (if b then "true" else "false")]
  | .integer i => some [.scalar (toString i)]
  | .floatingPoint _ => none

/-- The `for (k, v) in mapping` loop: the key node events followed by the
value node events, pair after pair, in iteration order. -/
def pairsIntoEvents : List (Node × Node) → Option (List Event)
  | [] => some []
  | (k, v) :: rest =>
    match nodeIntoEvents k, nodeIntoEvents v, pairsIntoEvents rest with
    | some ke, some ve, some re => some (ke ++ ve ++ re)
    | _, _, _ => none

/-- The `for item in sequence` loop. -/
def listIntoEvents : List Node → Option (List Event)
  | [] => some []
  | n :: rest =>
    match nodeIntoEvents n, listIntoEvents rest with
    | some ne, some re => some (ne ++ re)
    | _, _ => none

end

/-- `struct Document` of `src/lib.rs`. -/
structure Document where
  directives : List String
  nodes : List Node

/-- `impl IntoEvents for Document`. -/
def docIntoEvents (d : Document) : Option (List Event) :=
  match listIntoEvents d.nodes with
  | some body => some (.documentStart :: (body ++ [.documentEnd]))
  | none => none

/-- `struct Stream` of `src/lib.rs`. (Named `YStream` because Lean already
has a `Stream` class.) -/
structure YStream where
  docs : List Document

/-- The `for doc in self.0` loop of `impl IntoEvents for Stream`. -/
def docsIntoEvents : List Document → Option (List Event)
  | [] => some []
  | d :: rest =>
    match docIntoEvents d, docsIntoEvents rest with
    | some de, some re => some (de ++ re)
    | _, _ => none

/-- `impl IntoEvents for Stream`. -/
def streamIntoEvents (s : YStream) : Option (List Event) :=
  match docsIntoEvents s.docs with
  | some body => some (.streamStart :: (body ++ [.streamEnd]))
  | none => none

/-- The full dump pipeline of `src/lib.rs` (see the `basic` test): translate
the stream to events and emit them with `src/emitter.rs`. -/
def emitStream (s : YStream) (indent_size : Nat) : Option (Except EmitError String) :=
  (streamIntoEvents s).map fun es => Flat.emit es indent_size

/-- Event sequence of the nested-mapping scenario, as listed in the claim. -/
def c1Events : List Event :=
  [.mappingStart 0, .scalar "global", .mappingStart 0, .scalar "registry",
   .scalar "test", .mappingEnd, .mappingEnd]

/-- Event sequence of the mapping-with-sequence scenario, as listed in the
claim. -/
def c3Events : List Event :=
  [.mappingStart 0, .scalar "roles", .sequenceStart 0, .scalar "master",
   .scalar "ingest", .sequenceEnd, .mappingEnd]

/-- Event sequence distinguishing the two emitter iterations: events that
follow `StreamEnd`. -/
def c9Events : List Event :=
  [.streamStart, .streamEnd, .documentStart, .documentEnd]

/-- Sample document tree with a sequence-valued mapping entry. -/
def sampleTree : YStream :=
  ⟨[⟨[], [Node.mapping [(.string "roles", .sequence [.string "master", .string "ingest"])]]⟩]⟩

/-- Well-nested event sequence used to witness the balance invariant. -/
def c2Events : List Event :=
  [.streamStart, .documentStart, .mappingStart 0, .scalar "a", .scalar "b",
   .mappingEnd, .documentEnd, .streamEnd]

/-- Unbalanced event sequence (extra `MappingEnd`s) used to witness the
guarded decrement. -/
def c5Events : List Event := [.streamStart, .mappingEnd, .mappingEnd]

/-- Insertion sequence with a duplicate key, used to witness the BTreeMap
invariants (insertion order b, a, b). -/
def c10Pairs : List (Node × Node) :=
  [(.string "b", .integer 1), (.string "a", .integer 2), (.string "b", .integer 3)]

/-! ## Theorems -/

/-- C1, counterexample: on the nested-mapping events both emitters output
the inline form `"global: registry: test\n"`, not the claimed
`"global: \n  registry: test\n"`. The lookahead branch of
`emit_mapping_start` only indents when a `MappingStart` immediately follows
a `MappingStart`, and here a `Scalar` key always sits in between, while the
`MappingKey` branch of `emit_scalar` appends a newline only before a
`SequenceStart`. -/
theorem c1_nested_mapping_counterexample :
    Flat.emit c1Events 2 = Except.ok "global: registry: test\n" ∧
    Stacked.emit c1Events ⟨2⟩ = Except.ok "global: registry: test\n" ∧
    "global: registry: test\n" ≠ "global: \n  registry: test\n" :=
  ⟨rfl, rfl, by decide⟩

/-- C1, amended: emitting the nested mapping events with indent size 2
produces exactly `"global: registry: test\n"` on both emitter iterations —
the nested mapping value continues inline on the same line. -/
theorem c1_nested_mapping_amended :
    Flat.emit c1Events 2 = Except.ok "global: registry: test\n" ∧
    Stacked.emit c1Events ⟨2⟩ = Except.ok "global: registry: test\n" :=
  ⟨rfl, rfl⟩

/-- C3: emitting the mapping-with-sequence events with indent size 2
produces exactly `"roles: \n  - master\n  - ingest\n"`: the key is followed
by a newline (the `SequenceStart` lookahead) and every item is an indented
`- item` line. -/
theorem c3_sequence_value_scenario :
    Flat.emit c3Events 2 = Except.ok "roles: \n  - master\n  - ingest\n" := rfl

/-- C4: an `Alias` event reaches the `todo!()` placeholder of both
emitters, an abort (modelled `EmitError.notImplemented`), not a structured
"unsupported feature" error result — the emitter error type has no such
variant at all. -/
theorem c4_alias_hits_todo :
    Flat.emit [.streamStart, .alias 0, .streamEnd] 2 = Except.error EmitError.notImplemented ∧
    Stacked.emit [.streamStart, .alias 0, .streamEnd] ⟨2⟩ =
      Except.error EmitError.notImplemented :=
  ⟨rfl, rfl⟩

/-- C6: emission is deterministic — the translate-and-emit pipeline is a
pure function of the document tree and the indent size, so two runs on equal
inputs give byte-identical results. -/
theorem c6_determinism (s t : YStream) (n m : Nat) (hs : s = t) (hn : n = m) :
    emitStream s n = emitStream t m := by rw [hs, hn]

/-- C6 witness: the pipeline evaluated on a concrete tree. -/
theorem c6_determinism_witness :
    emitStream sampleTree 2 = some (Except.ok "---\nroles: \n  - master\n  - ingest\n...\n") ∧
    emitStream sampleTree 2 = emitStream sampleTree 2 :=
  ⟨rfl, c6_determinism sampleTree sampleTree 2 2 rfl rfl⟩

/-- C7: each scalar-like Node variant translates to exactly one `Scalar`
event holding its canonical textual form (`String` verbatim, `Null` to
`"null"`, `Boolean` to `"true"` / `"false"`, `Integer` to its decimal
representation). -/
theorem c7_scalar_canonical_events :
    (∀ s, nodeIntoEvents (.string s) = some [.scalar s]) ∧
    nodeIntoEvents .null = some [.scalar "null"] ∧
    nodeIntoEvents (.boolean true) = some [.scalar "true"] ∧
    nodeIntoEvents (.boolean false) = some [.scalar "false"] ∧
    (∀ i : Int, nodeIntoEvents (.integer i) = some [.scalar (toString i)]) :=
  ⟨fun _ => rfl, rfl, rfl, rfl, fun _ => rfl⟩

/-- C8: cursor laws of `EventIter` — when `peek` returns an event, `next`
returns the same event and advances the position by one; past the end both
signal exhaustion; `next` never mutates the underlying event sequence (and
`peek`, a pure function of the cursor, cannot). -/
theorem c8_cursor_laws (it : EventIter) :
    (∀ e, it.peek = some e → it.next.1 = some e ∧ it.next.2.index = it.index + 1) ∧
    (it.events.length ≤ it.index → it.peek = none ∧ it.next.1 = none) ∧
    it.next.2.events = it.events := by
  refine ⟨fun e h => ⟨h, rfl⟩, fun h => ?_, rfl⟩
  have hnone : it.events.get? it.index = none := List.get?_eq_none.mpr h
  exact ⟨hnone, hnone⟩

/-- C8 witness: the cursor laws applied at concrete cursors. -/
theorem c8_cursor_laws_witness :
    (EventIter.next ⟨[Event.scalar "x"], 0⟩).1 = some (Event.scalar "x") ∧
    (EventIter.next ⟨[Event.scalar "x"], 0⟩).2.index = 1 ∧
    EventIter.peek ⟨[Event.scalar "x"], 1⟩ = none ∧
    (EventIter.next ⟨[Event.scalar "x"], 1⟩).1 = none :=
  ⟨((c8_cursor_laws ⟨[Event.scalar "x"], 0⟩).1 (Event.scalar "x") rfl).1,
   ((c8_cursor_laws ⟨[Event.scalar "x"], 0⟩).1 (Event.scalar "x") rfl).2,
   ((c8_cursor_laws ⟨[Event.scalar "x"], 1⟩).2.1 (by decide)).1,
   ((c8_cursor_laws ⟨[Event.scalar "x"], 1⟩).2.1 (by decide)).2⟩

/-- C9, counterexample: the two emitter iterations are not observationally
equivalent. On events following `StreamEnd` the flat emitter breaks out of
its loop while the stack-based emitter keeps consuming: both succeed here
but with different output. -/
theorem c9_equivalence_counterexample :
    Flat.emit c9Events 2 = Except.ok "" ∧
    Stacked.emit c9Events ⟨2⟩ = Except.ok "---\n...\n" ∧
    ("" : String) ≠ "---\n...\n" :=
  ⟨rfl, rfl, by decide⟩

/-- C9, amended: the two emitter iterations agree — identical output text
and outcome — on the scenario event streams of the spec (nested mapping,
mapping with sequence value, empty stream), but not on every event vector. -/
theorem c9_equivalence_amended :
    Flat.emit c1Events 2 = Stacked.emit c1Events ⟨2⟩ ∧
    Flat.emit c3Events 2 = Stacked.emit c3Events ⟨2⟩ ∧
    Flat.emit [.streamStart, .streamEnd] 2 = Stacked.emit [.streamStart, .streamEnd] ⟨2⟩ :=
  ⟨rfl, rfl, rfl⟩

theorem smCount_nonneg (ks : List BKind) : 0 ≤ smCount ks := by
  induction ks with
  | nil => simp [smCount]
  | cons k ks ih => cases k <;> simp [smCount] <;> omega

/-- One simulation step: when the bracket checker accepts an event, a
successful emitter step keeps the context stack in kind-wise lock-step with
the checker stack and keeps the indent level between 0 and the number of
open sequence/mapping kinds. -/
theorem Stacked.step_sim (st : Stacked.MState) (out : String) (e : Event) (rest : List Event)
    (st' : Stacked.MState) (out' : String) (ks ks' : List BKind)
    (hb : bstep ks e = some ks')
    (hmap : st.states.map Stacked.State.kind = ks)
    (hle : st.indent_level ≤ smCount ks)
    (hnn : 0 ≤ st.indent_level)
    (hstep : Stacked.step st out e rest = .ok (st', out')) :
    st'.states.map Stacked.State.kind = ks' ∧
    st'.indent_level ≤ smCount ks' ∧ 0 ≤ st'.indent_level := by
  subst hmap
  cases e with
  | streamStart =>
      simp only [bstep, Option.some.injEq] at hb
      subst hb
      simp only [Stacked.step, Except.ok.injEq, Prod.mk.injEq] at hstep
      obtain ⟨rfl, rfl⟩ := hstep
      refine ⟨by simp [Stacked.State.kind], ?_, hnn⟩
      simpa [smCount] using hle
  | documentStart =>
      simp only [bstep, Option.some.injEq] at hb
      subst hb
      simp only [Stacked.step, Except.ok.injEq, Prod.mk.injEq] at hstep
      obtain ⟨rfl, rfl⟩ := hstep
      refine ⟨by simp [Stacked.State.kind], ?_, hnn⟩
      simpa [smCount] using hle
  | sequenceStart tag =>
      simp only [bstep, Option.some.injEq] at hb
      subst hb
      simp only [Stacked.step, Except.ok.injEq, Prod.mk.injEq] at hstep
      obtain ⟨rfl, rfl⟩ := hstep
      refine ⟨by simp [Stacked.State.kind], ?_, ?_⟩
      · show st.indent_level + 1 ≤
          smCount (BKind.sequence :: List.map Stacked.State.kind st.states)
        simp only [smCount]
        omega
      · show 0 ≤ st.indent_level + 1
        omega
  | mappingStart tag =>
      simp only [bstep, Option.some.injEq] at hb
      subst hb
      simp only [Stacked.step] at hstep
      split at hstep
      · simp only [Except.ok.injEq, Prod.mk.injEq] at hstep
        obtain ⟨rfl, rfl⟩ := hstep
        refine ⟨by simp [Stacked.State.kind], ?_, ?_⟩
        · show st.indent_level + 1 ≤
            smCount (BKind.mapping :: List.map Stacked.State.kind st.states)
          simp only [smCount]
          omega
        · show 0 ≤ st.indent_level + 1
          omega
      · simp only [Except.ok.injEq, Prod.mk.injEq] at hstep
        obtain ⟨rfl, rfl⟩ := hstep
        refine ⟨by simp [Stacked.State.kind], ?_, hnn⟩
        show st.indent_level ≤
          smCount (BKind.mapping :: List.map Stacked.State.kind st.states)
        simp only [smCount]
        omega
  | streamEnd =>
      cases hs : st.states with
      | nil =>
          simp only [hs, Stacked.step] at hstep
          exact Except.noConfusion hstep
      | cons s tl =>
          rw [hs, List.map_cons] at hb hle
          cases s with
          | stream =>
              simp only [Stacked.State.kind, bstep, Option.some.injEq] at hb
              subst hb
              simp only [hs, Stacked.step, Except.ok.injEq, Prod.mk.injEq] at hstep
              obtain ⟨rfl, rfl⟩ := hstep
              refine ⟨by simp, ?_, hnn⟩
              simpa [smCount, Stacked.State.kind] using hle
          | document =>
              simp only [Stacked.State.kind, bstep] at hb
              exact Option.noConfusion hb
          | sequence =>
              simp only [Stacked.State.kind, bstep] at hb
              exact Option.noConfusion hb
          | mapping b =>
              simp only [Stacked.State.kind, bstep] at hb
              exact Option.noConfusion hb
  | documentEnd =>
      cases hs : st.states with
      | nil =>
          simp only [hs, Stacked.step] at hstep
          exact Except.noConfusion hstep
      | cons s tl =>
          rw [hs, List.map_cons] at hb hle
          cases s with
          | document =>
              simp only [Stacked.State.kind, bstep, Option.some.injEq] at hb
              subst hb
              simp only [hs, Stacked.step, Except.ok.injEq, Prod.mk.injEq] at hstep
              obtain ⟨rfl, rfl⟩ := hstep
              refine ⟨by simp, ?_, hnn⟩
              simpa [smCount, Stacked.State.kind] using hle
          | stream =>
              simp only [Stacked.State.kind, bstep] at hb
              exact Option.noConfusion hb
          | sequence =>
              simp only [Stacked.State.kind, bstep] at hb
              exact Option.noConfusion hb
          | mapping b =>
              simp only [Stacked.State.kind, bstep] at hb
              exact Option.noConfusion hb
  | sequenceEnd =>
      cases hs : st.states with
      | nil =>
          simp only [hs, Stacked.step] at hstep
          exact Except.noConfusion hstep
      | cons s tl =>
          rw [hs, List.map_cons] at hb hle
          cases s with
          | sequence =>
              simp only [Stacked.State.kind, bstep, Option.some.injEq] at hb
              subst hb
              simp only [hs, Stacked.step, Except.ok.injEq, Prod.mk.injEq] at hstep
              obtain ⟨rfl, rfl⟩ := hstep
              simp only [Stacked.State.kind, smCount] at hle
              have hsm := smCount_nonneg (List.map Stacked.State.kind tl)
              refine ⟨by simp, ?_, ?_⟩
              · show (if 0 < st.indent_level then st.indent_level - 1 else st.indent_level) ≤
                  smCount (List.map Stacked.State.kind tl)
                split <;> omega
              · show 0 ≤ (if 0 < st.indent_level then st.indent_level - 1 else st.indent_level)
                split <;> omega
          | stream =>
              simp only [Stacked.State.kind, bstep] at hb
              exact Option.noConfusion hb
          | document =>
              simp only [Stacked.State.kind, bstep] at hb
              exact Option.noConfusion hb
          | mapping b =>
              simp only [Stacked.State.kind, bstep] at hb
              exact Option.noConfusion hb
  | mappingEnd =>
      cases hs : st.states with
      | nil =>
          simp only [hs, Stacked.step] at hstep
          exact Except.noConfusion hstep
      | cons s tl =>
          rw [hs, List.map_cons] at hb hle
          cases s with
          | mapping b =>
              simp only [Stacked.State.kind, bstep, Option.some.injEq] at hb
              subst hb
              simp only [hs, Stacked.step, Except.ok.injEq, Prod.mk.injEq] at hstep
              obtain ⟨rfl, rfl⟩ := hstep
              simp only [Stacked.State.kind, smCount] at hle
              have hsm := smCount_nonneg (List.map Stacked.State.kind tl)
              refine ⟨by simp, ?_, ?_⟩
              · show (if 0 < st.indent_level then st.indent_level - 1 else st.indent_level) ≤
                  smCount (List.map Stacked.State.kind tl)
                split <;> omega
              · show 0 ≤ (if 0 < st.indent_level then st.indent_level - 1 else st.indent_level)
                split <;> omega
          | stream =>
              simp only [Stacked.State.kind, bstep] at hb
              exact Option.noConfusion hb
          | document =>
              simp only [Stacked.State.kind, bstep] at hb
              exact Option.noConfusion hb
          | sequence =>
              simp only [Stacked.State.kind, bstep] at hb
              exact Option.noConfusion hb
  | «alias» id =>
      simp only [Stacked.step] at hstep
      exact Except.noConfusion hstep
  | mappingKey =>
      simp only [Stacked.step] at hstep
      exact Except.noConfusion hstep
  | mappingValue =>
      simp only [Stacked.step] at hstep
      exact Except.noConfusion hstep
  | scalar v =>
      simp only [bstep, Option.some.injEq] at hb
      subst hb
      cases hs : st.states with
      | nil =>
          simp only [hs, Stacked.step] at hstep
          exact Except.noConfusion hstep
      | cons s tl =>
          cases s with
          | stream =>
              simp only [hs, Stacked.step] at hstep
              exact Except.noConfusion hstep
          | document =>
              simp only [hs, Stacked.step] at hstep
              exact Except.noConfusion hstep
          | sequence =>
              simp only [hs, Stacked.step, Except.ok.injEq, Prod.mk.injEq] at hstep
              obtain ⟨rfl, rfl⟩ := hstep
              rw [hs] at hle
              exact ⟨by rw [hs], hle, hnn⟩
          | mapping b =>
              simp only [hs, Stacked.step] at hstep
              repeat' split at hstep
              all_goals simp only [Except.ok.injEq, Prod.mk.injEq] at hstep
              all_goals obtain ⟨rfl, rfl⟩ := hstep
              all_goals rw [hs] at hle
              all_goals refine ⟨by simp [hs, Stacked.State.kind], ?_, hnn⟩
              all_goals
                show st.indent_level ≤ smCount (List.map Stacked.State.kind (.mapping b :: tl))
              all_goals exact hle

/-- Processing a balanced event segment to completion empties the context
stack and returns the indent level to 0. -/
theorem Stacked.balancedRun (es : List Event) : ∀ (ks : List BKind) (st : Stacked.MState)
    (out : String) (fin : Stacked.MState) (fout : String),
    balancedFrom ks es = true →
    st.states.map Stacked.State.kind = ks →
    st.indent_level ≤ smCount ks →
    0 ≤ st.indent_level →
    Stacked.emitFrom st out es = .ok (fin, fout) →
    fin.states = [] ∧ fin.indent_level = 0 := by
  induction es with
  | nil =>
      intro ks st out fin fout hbal hmap hle hnn hrun
      simp only [balancedFrom, List.isEmpty_iff] at hbal
      subst hbal
      simp only [Stacked.emitFrom, Except.ok.injEq, Prod.mk.injEq] at hrun
      obtain ⟨rfl, rfl⟩ := hrun
      refine ⟨by simpa using hmap, ?_⟩
      simp only [smCount] at hle
      omega
  | cons e rest ih =>
      intro ks st out fin fout hbal hmap hle hnn hrun
      simp only [balancedFrom] at hbal
      cases hb : bstep ks e with
      | none =>
          simp only [hb] at hbal
          exact Bool.noConfusion hbal
      | some ks' =>
          simp only [hb] at hbal
          simp only [Stacked.emitFrom] at hrun
          cases hstep : Stacked.step st out e rest with
          | error err =>
              simp only [hstep] at hrun
              exact Except.noConfusion hrun
          | ok p =>
              obtain ⟨st', out'⟩ := p
              simp only [hstep] at hrun
              obtain ⟨hmap', hle', hnn'⟩ :=
                Stacked.step_sim st out e rest st' out' ks ks' hb hmap hle hnn hstep
              exact ih ks' st' out' fin fout hbal hmap' hle' hnn' hrun

/-- C2: for every well-nested event sequence, when the stack-based emitter
runs to completion (in a well-nested sequence `StreamEnd` is the last
event), the final indent level is exactly 0 and the context stack is
empty. -/
theorem c2_balance_invariant (es : List Event) (opts : Stacked.EmitterOptions)
    (fin : Stacked.MState) (fout : String)
    (h : WellNested es)
    (hrun : Stacked.emitFrom (Stacked.initState opts) "" es = .ok (fin, fout)) :
    fin.indent_level = 0 ∧ fin.states = [] := by
  have hmain := Stacked.balancedRun es [] (Stacked.initState opts) "" fin fout h.1 rfl
    (by simp [Stacked.initState, smCount]) (by simp [Stacked.initState]) hrun
  exact ⟨hmain.2, hmain.1⟩

/-- C2 witness: the balance invariant applied to a concrete well-nested
sequence whose run completes. -/
theorem c2_balance_invariant_witness :
    WellNested c2Events ∧
    Stacked.emitFrom (Stacked.initState ⟨2⟩) "" c2Events =
      .ok (⟨0, [], 2⟩, "---\na: b\n...\n") ∧
    ((⟨0, [], 2⟩ : Stacked.MState).indent_level = 0 ∧
      (⟨0, [], 2⟩ : Stacked.MState).states = []) :=
  ⟨by decide, rfl,
   c2_balance_invariant c2Events ⟨2⟩ ⟨0, [], 2⟩ "---\na: b\n...\n" (by decide) rfl⟩

/-- A successful step of the stack-based emitter keeps the indent level
non-negative: the only decrements are guarded by `indent_level > 0`. -/
theorem stacked_step_indent_nonneg (st : Stacked.MState) (out : String) (e : Event)
    (rest : List Event) (st' : Stacked.MState) (out' : String)
    (h : Stacked.step st out e rest = .ok (st', out')) (hnn : 0 ≤ st.indent_level) :
    0 ≤ st'.indent_level := by
  cases e <;> simp only [Stacked.step] at h <;> repeat' split at h
  all_goals first
    | exact Except.noConfusion h
    | (simp only [Except.ok.injEq, Prod.mk.injEq] at h
       obtain ⟨rfl, rfl⟩ := h
       first
         | exact hnn
         | (show 0 ≤ st.indent_level + 1
            omega)
         | (show 0 ≤ st.indent_level - 1
            omega))

/-- A continuing step of the flat emitter keeps the indent level
non-negative: the only decrements are guarded by `indent_level > 0`. -/
theorem flat_step_indent_nonneg (st : Flat.EmitterState) (out : String) (e : Event)
    (rest : List Event) (st' : Flat.EmitterState) (out' : String)
    (h : Flat.step st out e rest = .next st' out') (hnn : 0 ≤ st.indent_level) :
    0 ≤ st'.indent_level := by
  cases e <;> simp only [Flat.step] at h <;> repeat' split at h
  all_goals first
    | exact Flat.Step.noConfusion h
    | (simp only [Flat.Step.next.injEq] at h
       obtain ⟨rfl, rfl⟩ := h
       first
         | exact hnn
         | (show 0 ≤ st.indent_level + 1
            omega)
         | (show 0 ≤ st.indent_level - 1
            omega))

theorem stacked_traceFrom_nonneg (es : List Event) : ∀ (st : Stacked.MState) (out : String),
    0 ≤ st.indent_level → ∀ s ∈ Stacked.traceFrom st out es, 0 ≤ s.indent_level := by
  induction es with
  | nil =>
      intro st out h s hs
      simp [Stacked.traceFrom] at hs
  | cons e rest ih =>
      intro st out h s hs
      simp only [Stacked.traceFrom] at hs
      cases hstep : Stacked.step st out e rest with
      | ok p =>
          obtain ⟨st', out'⟩ := p
          simp only [hstep, List.mem_cons] at hs
          rcases hs with rfl | hs
          · exact stacked_step_indent_nonneg st out e rest s out' hstep h
          · exact ih st' out' (stacked_step_indent_nonneg st out e rest st' out' hstep h) s hs
      | error err =>
          simp only [hstep] at hs
          simp at hs

theorem flat_traceFrom_nonneg (es : List Event) : ∀ (st : Flat.EmitterState) (out : String),
    0 ≤ st.indent_level → ∀ s ∈ Flat.traceFrom st out es, 0 ≤ s.indent_level := by
  induction es with
  | nil =>
      intro st out h s hs
      simp [Flat.traceFrom] at hs
  | cons e rest ih =>
      intro st out h s hs
      simp only [Flat.traceFrom] at hs
      cases hstep : Flat.step st out e rest with
      | next st' out' =>
          simp only [hstep, List.mem_cons] at hs
          rcases hs with rfl | hs
          · exact flat_step_indent_nonneg st out e rest s out' hstep h
          · exact ih st' out' (flat_step_indent_nonneg st out e rest st' out' hstep h) s hs
      | halt =>
          simp only [hstep] at hs
          simp at hs
      | fail err =>
          simp only [hstep] at hs
          simp at hs

/-- C5: for every event sequence, including unbalanced ones with extra End
events, every state either emitter reaches has a non-negative indent level
(each decrement is guarded); moreover processing a `MappingEnd` or a
`SequenceEnd` with the stack-based emitter at indent level 0 either pops a
frame leaving the level clamped at 0, or aborts with the empty-stack pop
(the malformed-input condition) — never a negative level. -/
theorem c5_guarded_decrement (es : List Event) (n : Nat) :
    (∀ st ∈ Stacked.traceFrom (Stacked.initState ⟨n⟩) "" es, 0 ≤ st.indent_level) ∧
    (∀ st ∈ Flat.traceFrom (Flat.initState n) "" es, 0 ≤ st.indent_level) ∧
    (∀ (st : Stacked.MState) (out : String) (rest : List Event) (e : Event),
      st.indent_level = 0 → (e = Event.mappingEnd ∨ e = Event.sequenceEnd) →
      Stacked.step st out e rest = Except.error EmitError.poppedEmptyStack ∨
      ∃ st' out', Stacked.step st out e rest = Except.ok (st', out') ∧
        st'.indent_level = 0) := by
  refine ⟨stacked_traceFrom_nonneg es (Stacked.initState ⟨n⟩) "" (by simp [Stacked.initState]),
    flat_traceFrom_nonneg es (Flat.initState n) "" (by simp [Flat.initState]), ?_⟩
  intro st out rest e h0 he
  rcases he with rfl | rfl <;>
    · cases hs : st.states with
      | nil => exact Or.inl (by simp [Stacked.step, hs])
      | cons s tl =>
          refine Or.inr ⟨⟨if 0 < st.indent_level then st.indent_level - 1 else st.indent_level,
            tl, st.indent_size⟩, out, ?_, ?_⟩
          · simp [Stacked.step, hs]
          · show (if 0 < st.indent_level then st.indent_level - 1 else st.indent_level) = 0
            simp [h0]

/-- C5 witness: the guarded decrement applied to a concrete unbalanced
sequence with extra `MappingEnd`s, and the clamp-or-abort disjunction at a
concrete zero-indent state. -/
theorem c5_guarded_decrement_witness :
    ((⟨0, [Stacked.State.stream], 2⟩ : Stacked.MState) ∈
        Stacked.traceFrom (Stacked.initState ⟨2⟩) "" c5Events ∧
      (0 : Int) ≤ (⟨0, [Stacked.State.stream], 2⟩ : Stacked.MState).indent_level) ∧
    ((⟨0, 2, Flat.State.initial⟩ : Flat.EmitterState) ∈
        Flat.traceFrom (Flat.initState 2) "" c5Events ∧
      (0 : Int) ≤ (⟨0, 2, Flat.State.initial⟩ : Flat.EmitterState).indent_level) ∧
    (Stacked.step ⟨0, [], 2⟩ "" Event.mappingEnd [] = Except.error EmitError.poppedEmptyStack ∨
      ∃ st' out', Stacked.step ⟨0, [], 2⟩ "" Event.mappingEnd [] = Except.ok (st', out') ∧
        st'.indent_level = 0) :=
  ⟨⟨by decide, (c5_guarded_decrement c5Events 2).1 ⟨0, [Stacked.State.stream], 2⟩ (by decide)⟩,
   ⟨by decide, (c5_guarded_decrement c5Events 2).2.1 ⟨0, 2, Flat.State.initial⟩ (by decide)⟩,
   (c5_guarded_decrement c5Events 2).2.2 ⟨0, [], 2⟩ "" [] Event.mappingEnd rfl (Or.inl rfl)⟩

theorem cmpBase_swap {α : Type} [LinearOrder α] (a b : α) :
    compare a b = (compare b a).swap := by
  rcases lt_trichotomy a b with h | h | h
  · rw [compare_lt_iff_lt.mpr h, compare_gt_iff_gt.mpr h]
    rfl
  · subst h
    rw [show compare a a = .eq from compare_eq_iff_eq.mpr rfl]
    rfl
  · rw [compare_gt_iff_gt.mpr h, compare_lt_iff_lt.mpr h]
    rfl

theorem cmpBase_trans {α : Type} [LinearOrder α] (a b c : α)
    (h1 : compare a b = .lt) (h2 : compare b c = .lt) : compare a c = .lt :=
  compare_lt_iff_lt.mpr (lt_trans (compare_lt_iff_lt.mp h1) (compare_lt_iff_lt.mp h2))

mutual

theorem cmpNode_eq_iff : ∀ (a b : Node), cmpNode a b = Ordering.eq ↔ a = b
  | a, b => by
    cases a <;> cases b <;> simp [cmpNode, compare_eq_iff_eq]
    case mapping.mapping x y => exact cmpPairs_eq_iff x y
    case sequence.sequence x y => exact cmpList_eq_iff x y

theorem cmpList_eq_iff : ∀ (x y : List Node), cmpList x y = Ordering.eq ↔ x = y
  | [], [] => by simp [cmpList]
  | [], b :: bs => by simp [cmpList]
  | a :: as, [] => by simp [cmpList]
  | a :: as, b :: bs => by
      simp [cmpList, Ordering.then_eq_eq, cmpNode_eq_iff a b, cmpList_eq_iff as bs]

theorem cmpPairs_eq_iff : ∀ (x y : List (Node × Node)), cmpPairs x y = Ordering.eq ↔ x = y
  | [], [] => by simp [cmpPairs]
  | [], q :: qs => by simp [cmpPairs]
  | p :: ps, [] => by simp [cmpPairs]
  | (ka, va) :: ps, (kb, vb) :: qs => by
      simp [cmpPairs, Ordering.then_eq_eq, cmpNode_eq_iff ka kb, cmpNode_eq_iff va vb,
        cmpPairs_eq_iff ps qs, and_assoc]

end

mutual

theorem cmpNode_swap : ∀ (a b : Node), cmpNode a b = (cmpNode b a).swap
  | a, b => by
    cases a <;> cases b <;> simp [cmpNode, Ordering.swap]
    case mapping.mapping x y => exact cmpPairs_swap x y
    case sequence.sequence x y => exact cmpList_swap x y
    case string.string x y => exact cmpBase_swap x y
    case boolean.boolean x y => exact cmpBase_swap x y
    case integer.integer x y => exact cmpBase_swap x y
    case floatingPoint.floatingPoint x y => exact cmpBase_swap x y

theorem cmpList_swap : ∀ (x y : List Node), cmpList x y = (cmpList y x).swap
  | [], [] => by simp [cmpList, Ordering.swap]
  | [], b :: bs => by simp [cmpList, Ordering.swap]
  | a :: as, [] => by simp [cmpList, Ordering.swap]
  | a :: as, b :: bs => by
      simp only [cmpList, Ordering.swap_then]
      rw [← cmpNode_swap a b, ← cmpList_swap as bs]

theorem cmpPairs_swap : ∀ (x y : List (Node × Node)), cmpPairs x y = (cmpPairs y x).swap
  | [], [] => by simp [cmpPairs, Ordering.swap]
  | [], q :: qs => by simp [cmpPairs, Ordering.swap]
  | p :: ps, [] => by simp [cmpPairs, Ordering.swap]
  | (ka, va) :: ps, (kb, vb) :: qs => by
      simp only [cmpPairs, Ordering.swap_then]
      rw [← cmpNode_swap ka kb, ← cmpNode_swap va vb, ← cmpPairs_swap ps qs]

end

theorem cmpNode_gt_iff (a b : Node) :
    cmpNode a b = Ordering.gt ↔ cmpNode b a = Ordering.lt := by
  rw [cmpNode_swap a b]
  cases h : cmpNode b a <;> simp [Ordering.swap]

mutual

theorem cmpNode_trans : ∀ (a b c : Node), cmpNode a b = Ordering.lt →
    cmpNode b c = Ordering.lt → cmpNode a c = Ordering.lt
  | a, b, c => by
    intro hab hbc
    cases a <;> cases b <;> cases c <;> simp_all [cmpNode]
    case mapping.mapping.mapping x y z => exact cmpPairs_trans x y z hab hbc
    case sequence.sequence.sequence x y z => exact cmpList_trans x y z hab hbc
    case string.string.string x y z => exact cmpBase_trans x y z hab hbc
    case boolean.boolean.boolean x y z => exact cmpBase_trans x y z hab hbc
    case integer.integer.integer x y z => exact cmpBase_trans x y z hab hbc
    case floatingPoint.floatingPoint.floatingPoint x y z => exact cmpBase_trans x y z hab hbc

theorem cmpList_trans : ∀ (x y z : List Node), cmpList x y = Ordering.lt →
    cmpList y z = Ordering.lt → cmpList x z = Ordering.lt
  | [], [], _ => by
      intro h _
      simp [cmpList] at h
  | [], _ :: _, [] => by
      intro _ h
      simp [cmpList] at h
  | [], _ :: _, _ :: _ => by
      intro _ _
      simp [cmpList]
  | _ :: _, [], _ => by
      intro h _
      simp [cmpList] at h
  | _ :: _, _ :: _, [] => by
      intro _ h
      simp [cmpList] at h
  | a :: as, b :: bs, c :: cs => by
      intro hxy hyz
      simp only [cmpList, Ordering.then_eq_lt] at hxy hyz ⊢
      rcases hxy with h1 | ⟨h1, h1t⟩ <;> rcases hyz with h2 | ⟨h2, h2t⟩
      · exact Or.inl (cmpNode_trans a b c h1 h2)
      · obtain rfl := (cmpNode_eq_iff b c).mp h2
        exact Or.inl h1
      · obtain rfl := (cmpNode_eq_iff a b).mp h1
        exact Or.inl h2
      · obtain rfl := (cmpNode_eq_iff a b).mp h1
        obtain rfl := (cmpNode_eq_iff a c).mp h2
        exact Or.inr ⟨(cmpNode_eq_iff a a).mpr rfl, cmpList_trans as bs cs h1t h2t⟩

theorem cmpPairs_trans : ∀ (x y z : List (Node × Node)), cmpPairs x y = Ordering.lt →
    cmpPairs y z = Ordering.lt → cmpPairs x z = Ordering.lt
  | [], [], _ => by
      intro h _
      simp [cmpPairs] at h
  | [], _ :: _, [] => by
      intro _ h
      simp [cmpPairs] at h
  | [], _ :: _, _ :: _ => by
      intro _ _
      simp [cmpPairs]
  | _ :: _, [], _ => by
      intro h _
      simp [cmpPairs] at h
  | _ :: _, _ :: _, [] => by
      intro _ h
      simp [cmpPairs] at h
  | (ka, va) :: ps, (kb, vb) :: qs, (kc, vc) :: rs => by
      intro hxy hyz
      simp only [cmpPairs, Ordering.then_eq_lt, Ordering.then_eq_eq] at hxy hyz ⊢
      rcases hxy with (hk1 | ⟨hk1, hv1⟩) | ⟨⟨hk1, hv1⟩, hp1⟩ <;>
        rcases hyz with (hk2 | ⟨hk2, hv2⟩) | ⟨⟨hk2, hv2⟩, hp2⟩
      · exact Or.inl (Or.inl (cmpNode_trans ka kb kc hk1 hk2))
      · obtain rfl := (cmpNode_eq_iff kb kc).mp hk2
        exact Or.inl (Or.inl hk1)
      · obtain rfl := (cmpNode_eq_iff kb kc).mp hk2
        exact Or.inl (Or.inl hk1)
      · obtain rfl := (cmpNode_eq_iff ka kb).mp hk1
        exact Or.inl (Or.inl hk2)
      · obtain rfl := (cmpNode_eq_iff ka kb).mp hk1
        obtain rfl := (cmpNode_eq_iff ka kc).mp hk2
        exact Or.inl (Or.inr ⟨(cmpNode_eq_iff ka ka).mpr rfl, cmpNode_trans va vb vc hv1 hv2⟩)
      · obtain rfl := (cmpNode_eq_iff ka kb).mp hk1
        obtain rfl := (cmpNode_eq_iff ka kc).mp hk2
        obtain rfl := (cmpNode_eq_iff vb vc).mp hv2
        exact Or.inl (Or.inr ⟨(cmpNode_eq_iff ka ka).mpr rfl, hv1⟩)
      · obtain rfl := (cmpNode_eq_iff ka kb).mp hk1
        exact Or.inl (Or.inl hk2)
      · obtain rfl := (cmpNode_eq_iff ka kb).mp hk1
        obtain rfl := (cmpNode_eq_iff ka kc).mp hk2
        obtain rfl := (cmpNode_eq_iff va vb).mp hv1
        exact Or.inl (Or.inr ⟨(cmpNode_eq_iff ka ka).mpr rfl, hv2⟩)
      · obtain rfl := (cmpNode_eq_iff ka kb).mp hk1
        obtain rfl := (cmpNode_eq_iff ka kc).mp hk2
        obtain rfl := (cmpNode_eq_iff va vb).mp hv1
        obtain rfl := (cmpNode_eq_iff va vc).mp hv2
        exact Or.inr ⟨⟨(cmpNode_eq_iff ka ka).mpr rfl, (cmpNode_eq_iff va va).mpr rfl⟩,
          cmpPairs_trans ps qs rs hp1 hp2⟩

end

/-- Every pair of the inserted map either carries the inserted key or was
already present (key-wise). -/
theorem btInsert_keys_mem (k v : Node) : ∀ (m : List (Node × Node)),
    ∀ q ∈ btInsert m k v, q.1 = k ∨ q.1 ∈ mapKeys m := by
  intro m
  induction m with
  | nil =>
      intro q hq
      simp only [btInsert, List.mem_singleton] at hq
      subst hq
      exact Or.inl rfl
  | cons p rest ih =>
      obtain ⟨k', v'⟩ := p
      intro q hq
      simp only [btInsert] at hq
      cases h : cmpNode k k' with
      | lt =>
          simp only [h, List.mem_cons] at hq
          rcases hq with rfl | rfl | hq
          · exact Or.inl rfl
          · exact Or.inr (by simp [mapKeys])
          · refine Or.inr ?_
            simp only [mapKeys, List.map_cons, List.mem_cons]
            exact Or.inr (List.mem_map_of_mem Prod.fst hq)
      | eq =>
          simp only [h, List.mem_cons] at hq
          rcases hq with rfl | hq
          · exact Or.inr (by simp [mapKeys])
          · refine Or.inr ?_
            simp only [mapKeys, List.map_cons, List.mem_cons]
            exact Or.inr (List.mem_map_of_mem Prod.fst hq)
      | gt =>
          simp only [h, List.mem_cons] at hq
          rcases hq with rfl | hq
          · exact Or.inr (by simp [mapKeys])
          · rcases ih q hq with h1 | h1
            · exact Or.inl h1
            · refine Or.inr ?_
              simp only [mapKeys, List.map_cons, List.mem_cons]
              exact Or.inr (by simpa [mapKeys] using h1)

/-- `BTreeMap::insert` keeps the keys strictly sorted. -/
theorem btInsert_sorted (k v : Node) : ∀ (m : List (Node × Node)), KeysSorted m →
    KeysSorted (btInsert m k v) := by
  intro m
  induction m with
  | nil =>
      intro _
      simp [btInsert, KeysSorted]
  | cons p rest ih =>
      obtain ⟨k', v'⟩ := p
      intro hs
      rw [KeysSorted, List.pairwise_cons] at hs
      obtain ⟨hhead, htail⟩ := hs
      simp only [btInsert]
      cases h : cmpNode k k' with
      | lt =>
          rw [KeysSorted, List.pairwise_cons]
          refine ⟨?_, List.pairwise_cons.mpr ⟨hhead, htail⟩⟩
          intro q hq
          rcases List.mem_cons.mp hq with rfl | hq2
          · exact h
          · exact cmpNode_trans k k' q.1 h (hhead q hq2)
      | eq =>
          rw [KeysSorted, List.pairwise_cons]
          exact ⟨fun q hq => hhead q hq, htail⟩
      | gt =>
          rw [KeysSorted, List.pairwise_cons]
          refine ⟨?_, ih htail⟩
          intro q hq
          rcases btInsert_keys_mem k v rest q hq with h1 | h1
          · rw [h1]
            exact (cmpNode_gt_iff k k').mp h
          · obtain ⟨p, hp, hpe⟩ := List.mem_map.mp h1
            rw [← hpe]
            exact hhead p hp

/-- Strictly sorted keys are duplicate-free. -/
theorem KeysSorted.keys_nodup : ∀ (m : List (Node × Node)), KeysSorted m →
    (mapKeys m).Nodup := by
  intro m hs
  rw [KeysSorted] at hs
  have hp : List.Pairwise (fun a b => cmpNode a b = Ordering.lt) (m.map Prod.fst) :=
    List.pairwise_map.mpr hs
  refine hp.imp ?_
  intro a b h heq
  subst heq
  rw [(cmpNode_eq_iff a a).mpr rfl] at h
  exact Ordering.noConfusion h

/-- Maps built by inserting into the empty map are strictly sorted. -/
theorem mkMapping_sorted (ps : List (Node × Node)) : KeysSorted (mkMapping ps) := by
  have h : ∀ (qs acc : List (Node × Node)), KeysSorted acc →
      KeysSorted (qs.foldl (fun m kv => btInsert m kv.1 kv.2) acc) := by
    intro qs
    induction qs with
    | nil =>
        intro acc h
        simpa using h
    | cons q qs ih =>
        intro acc h
        exact ih _ (btInsert_sorted q.1 q.2 acc h)
  exact h ps [] (by simp [KeysSorted])

/-- Inserting a key that is already present replaces only the value: the key
list is unchanged and the lookup finds the new value. -/
theorem btInsert_replace (k v : Node) : ∀ (m : List (Node × Node)),
    btContains m k = true →
    mapKeys (btInsert m k v) = mapKeys m ∧ btLookup (btInsert m k v) k = some v := by
  intro m
  induction m with
  | nil =>
      intro h
      simp [btContains, btLookup] at h
  | cons p rest ih =>
      obtain ⟨k', v'⟩ := p
      intro hc
      simp only [btContains, btLookup] at hc
      cases h : cmpNode k k' with
      | lt =>
          simp only [h] at hc
          simp at hc
      | eq =>
          simp only [btInsert, h]
          refine ⟨by simp [mapKeys], ?_⟩
          simp only [btLookup, h]
      | gt =>
          simp only [h] at hc
          have hrec := ih (by simpa [btContains] using hc)
          simp only [btInsert, h]
          obtain ⟨h1, h2⟩ := hrec
          refine ⟨?_, ?_⟩
          · simp only [mapKeys, List.map_cons] at h1 ⊢
            rw [h1]
          · simp only [btLookup, h]
            exact h2

/-- C10: the BTreeMap-backed mapping model — a map built by inserts has
strictly ascending, duplicate-free keys under the derived Node ordering
(whatever the insertion order); inserting an already-present key replaces
the value without changing the key list; and the translator walks exactly
this sorted pair list, so each key reaches the event stream at most once and
in ascending order. -/
theorem c10_btreemap_mapping (ps : List (Node × Node)) :
    KeysSorted (mkMapping ps) ∧
    (mapKeys (mkMapping ps)).Nodup ∧
    (∀ k v, btContains (mkMapping ps) k = true →
      mapKeys (btInsert (mkMapping ps) k v) = mapKeys (mkMapping ps) ∧
      btLookup (btInsert (mkMapping ps) k v) k = some v) ∧
    nodeIntoEvents (Node.mapping (mkMapping ps)) =
      (pairsIntoEvents (mkMapping ps)).map
        (fun body => Event.mappingStart 0 :: (body ++ [Event.mappingEnd])) := by
  refine ⟨mkMapping_sorted ps, KeysSorted.keys_nodup _ (mkMapping_sorted ps),
    fun k v hc => btInsert_replace k v (mkMapping ps) hc, ?_⟩
  cases h : pairsIntoEvents (mkMapping ps) <;> simp [nodeIntoEvents, h]

/-- C10 witness: inserting b, a, b (a duplicate key) yields the sorted
two-entry map, and re-inserting key b replaces only its value. -/
theorem c10_btreemap_mapping_witness :
    mkMapping c10Pairs =
      [(Node.string "a", Node.integer 2), (Node.string "b", Node.integer 3)] ∧
    btContains (mkMapping c10Pairs) (Node.string "b") = true ∧
    (mapKeys (btInsert (mkMapping c10Pairs) (Node.string "b") (Node.integer 9)) =
      mapKeys (mkMapping c10Pairs) ∧
     btLookup (btInsert (mkMapping c10Pairs) (Node.string "b") (Node.integer 9))
       (Node.string "b") = some (Node.integer 9)) :=
  ⟨rfl, rfl,
   (c10_btreemap_mapping c10Pairs).2.2.1 (Node.string "b") (Node.integer 9) rfl⟩
